import Mathlib

/-!
Verification of the conversation-continuity and event-stream layer of the
nexus backend.

The definitions below are shallow embeddings of:
  * `patched_run_agent` in `backend/patches/agui_event_stream.py`
    (the AG-UI event-stream normalizer), and
  * `ResponsesApiThreadMiddleware` in
    `backend/api/middleware/responses_api.py` (message replay filtering and
    the thread-to-response-id store), plus the fresh-start filter of
    `backend/middleware/assistants_api.py`.

Python `set`s are modelled as duplicate-free `List String` values with
insertion-ordered `addSet` / `removeSet`, and Python string truthiness
(`if s:`) is modelled as `s ≠ ""` on `String` / `Option String`.
-/

namespace Nexus

/-- AG-UI streaming events, as consumed and produced by `patched_run_agent`.
Each constructor carries the fields the patch actually inspects. -/
inductive AGEvent where
  | textStart (messageId : String)
  | textContent (messageId : String)
  | textEnd (messageId : String)
  | toolStart (toolCallId : String) (toolName : String)
  | toolArgs (toolCallId : String)
  | toolEnd (toolCallId : String)
  | toolResult (toolCallId : String)
  | runFinished
  | messagesSnapshot
  | other (tag : String)
deriving DecidableEq, Repr

/-- Per-stream mutable state of `patched_run_agent` (lines 216-224 of
`agui_event_stream.py`).  `pendingTextStart` holds the message id of a
buffered `TEXT_MESSAGE_START`; the remaining fields model the Python sets. -/
structure NormState where
  pendingTextStart : Option String
  emittedMessages : List String
  messagesWithContent : List String
  emittedToolCalls : List String
  emittedToolNames : List String
  suppressedToolIds : List String
deriving DecidableEq, Repr

/-- The state at the start of a stream: empty buffer, empty sets. -/
def NormState.init : NormState :=
  ⟨none, [], [], [], [], []⟩

/-- `set.add`: insert if absent, preserving insertion order. -/
def addSet (s : List String) (x : String) : List String :=
  if x ∈ s then s else s ++ [x]

/-- `set.discard`: remove an element. -/
def removeSet (s : List String) (x : String) : List String :=
  s.filter (fun y => y ≠ x)

/-- One iteration of the event loop of `patched_run_agent`
(lines 228-408 of `agui_event_stream.py`): given the current state and the
incoming event, return the new state and the list of events yielded. -/
def step (s : NormState) : AGEvent → NormState × List AGEvent
  | .textStart m =>
      -- buffer the start (discarding any previous pending one), emit nothing
      ({ s with pendingTextStart := some m }, [])
  | .textContent m =>
      -- if a start is pending for this same message id, emit it first
      let (s1, out1) :=
        match s.pendingTextStart with
        | some p =>
            if p = m then
              ({ s with pendingTextStart := none,
                        emittedMessages := addSet s.emittedMessages p },
               [AGEvent.textStart p])
            else (s, [])
        | none => (s, [])
      -- `if msg_id: messages_with_content.add(msg_id)`
      let s2 :=
        if m ≠ "" then
          { s1 with messagesWithContent := addSet s1.messagesWithContent m }
        else s1
      (s2, out1 ++ [AGEvent.textContent m])
  | .textEnd m =>
      if m ∈ s.emittedMessages then
        ({ s with emittedMessages := removeSet s.emittedMessages m },
         [AGEvent.textEnd m])
      else (s, [])
  | .toolStart i n =>
      -- a tool call discards any pending text start
      let s0 := { s with pendingTextStart := none }
      if i ≠ "" ∧ i ∈ s.emittedToolCalls then
        ({ s0 with suppressedToolIds := addSet s0.suppressedToolIds i }, [])
      else if n ∈ s.emittedToolNames then
        ({ s0 with suppressedToolIds :=
            if i ≠ "" then addSet s0.suppressedToolIds i
            else s0.suppressedToolIds }, [])
      else
        ({ s0 with
            emittedToolCalls :=
              if i ≠ "" then addSet s0.emittedToolCalls i
              else s0.emittedToolCalls,
            emittedToolNames := addSet s0.emittedToolNames n },
         [AGEvent.toolStart i n])
  | .toolArgs i =>
      if i ≠ "" ∧ i ∈ s.suppressedToolIds then (s, [])
      else (s, [AGEvent.toolArgs i])
  | .toolEnd i =>
      if i ≠ "" ∧ i ∈ s.suppressedToolIds then (s, [])
      else (s, [AGEvent.toolEnd i])
  | .toolResult i =>
      if i ≠ "" ∧ i ∈ s.suppressedToolIds then
        ({ s with suppressedToolIds := removeSet s.suppressedToolIds i }, [])
      else (s, [AGEvent.toolResult i])
  | .runFinished =>
      -- inject END for every still-open message that received content,
      -- clear all per-stream state, then emit RUN_FINISHED
      let injected :=
        (s.emittedMessages.filter (fun m => m ∈ s.messagesWithContent)).map
          AGEvent.textEnd
      (NormState.init, injected ++ [AGEvent.runFinished])
  | .messagesSnapshot => (s, [])
  | .other t => (s, [AGEvent.other t])

/-- The whole event loop: fold `step` over the input stream, concatenating
the yielded events. -/
def runNorm (s : NormState) : List AGEvent → NormState × List AGEvent
  | [] => (s, [])
  | e :: rest =>
      ((runNorm (step s e).1 rest).1,
        (step s e).2 ++ (runNorm (step s e).1 rest).2)

/-- Output of the normalizer on a whole input stream, starting fresh. -/
def normOutput (evs : List AGEvent) : List AGEvent :=
  (runNorm NormState.init evs).2

/-- Recognizer for a text-message-start event with message id `m`. -/
def isStartOf (m : String) : AGEvent → Bool
  | .textStart m' => m' == m
  | _ => false

/-- Recognizer for a text-message-end event with message id `m`. -/
def isEndOf (m : String) : AGEvent → Bool
  | .textEnd m' => m' == m
  | _ => false

/-- Recognizer for a tool-call-start event with call id `i`. -/
def isToolStartId (i : String) : AGEvent → Bool
  | .toolStart i' _ => i' == i
  | _ => false

/-- Recognizer for a tool-call-start event with tool name `n`. -/
def isToolStartName (n : String) : AGEvent → Bool
  | .toolStart _ n' => n' == n
  | _ => false

/-- Number of text-message-start events for message id `m`. -/
def cStart (l : List AGEvent) (m : String) : Nat :=
  l.countP (isStartOf m)

/-- Number of text-message-end events for message id `m`. -/
def cEnd (l : List AGEvent) (m : String) : Nat :=
  l.countP (isEndOf m)

/-- Number of tool-call-start events carrying call id `i`. -/
def cToolId (l : List AGEvent) (i : String) : Nat :=
  l.countP (isToolStartId i)

/-- Number of tool-call-start events carrying tool name `n`. -/
def cToolName (l : List AGEvent) (n : String) : Nat :=
  l.countP (isToolStartName n)

/-- Number of text-message-start events for `m` in an input stream. -/
def countTS (l : List AGEvent) (m : String) : Nat :=
  cStart l m

/-! ## Responses API middleware (`backend/api/middleware/responses_api.py`) -/

/-- Message roles of `agent_framework._types.Role`. -/
inductive Role where
  | user
  | assistant
  | tool
  | system
deriving DecidableEq, Repr

/-- A content item of a chat message.  `type` mirrors the discriminator read
by `_is_function_call` / `_is_function_result`; `callId` is `none` when the
Python object has no `call_id` attribute; `name` is the tool name carried by
function-call content. -/
structure Content where
  type : String
  callId : Option String
  name : Option String
deriving DecidableEq, Repr

/-- `_is_function_call`. -/
def isFunctionCall (c : Content) : Bool :=
  c.type == "function_call"

/-- `_is_function_result`. -/
def isFunctionResult (c : Content) : Bool :=
  c.type == "function_result"

/-- A chat message: a role plus content items. -/
structure Message where
  role : Role
  contents : List Content
deriving DecidableEq, Repr

/-- Python truthiness of an optional string (`None` and `""` are falsy). -/
def optTruthy : Option String → Bool
  | some s => !(s == "")
  | none => false

/-- The backward scan `for i in range(len(messages)-1, -1, -1)` looking for
the most recent user message. -/
def findLastUser : List Message → Option Message
  | [] => none
  | m :: rest =>
      match findLastUser rest with
      | some u => some u
      | none => if m.role == Role.user then some m else none

/-- `ResponsesApiThreadMiddleware._filter_messages_for_api` (continuing
mode, lines 220-269): if the last message is a tool result, keep only it;
otherwise keep only the most recent user message; if there is no user
message, leave the list unchanged. -/
def filterMessagesForApi (msgs : List Message) : List Message :=
  match msgs.getLast? with
  | none => msgs
  | some last =>
      if last.role == Role.tool then [last]
      else
        match findLastUser msgs with
        | some u => [u]
        | none => msgs

/-- The `has_tool_related` check on an assistant message (lines 322-334):
function-call content, function-result content, or any content item with a
truthy `call_id`. -/
def hasToolRelated (m : Message) : Bool :=
  m.contents.any fun c =>
    isFunctionCall c || isFunctionResult c ||
      (match c.callId with
       | some s => !(s == "")
       | none => false)

/-- The keep/remove decision of the fresh-start loop body (lines 294-347):
keep user messages, drop tool messages, drop assistant messages with
tool-related content, keep everything else (system, ...). -/
def keepForFreshStart (m : Message) : Bool :=
  if m.role == Role.user then true
  else if m.role == Role.tool then false
  else if m.role == Role.assistant then !(hasToolRelated m)
  else true

/-- `ResponsesApiThreadMiddleware._filter_messages_for_fresh_start`
(lines 271-352): build the filtered list; replace the message list only when
its length changed. -/
def filterMessagesForFreshStart (msgs : List Message) : List Message :=
  let filtered := msgs.filter keepForFreshStart
  if filtered.length ≠ msgs.length then filtered else msgs

/-- `AssistantsApiThreadMiddleware._filter_messages_for_fresh_start`
(`backend/middleware/assistants_api.py`, lines 293-327): keep only the most
recent user message; clear the list when there is none. -/
def assistantsFilterFreshStart (msgs : List Message) : List Message :=
  if msgs.isEmpty then msgs
  else
    match findLastUser msgs with
    | some u => [u]
    | none => []

/-! ## ThreadStore and the handle-storing logic -/

/-- The `_thread_response_store` dict, as a map from AG-UI thread id to
stored response id. -/
def ThreadStore := String → Option String

/-- `_thread_response_store[k] = v`. -/
def storePut (store : ThreadStore) (k v : String) : ThreadStore :=
  fun k' => if k' = k then some v else store k'

/-- The recognized handle patterns checked before every store write:
`new_response_id.startswith(("resp_", "conv_"))`, expressed on the
character lists so that it evaluates by reduction. -/
def isRecognizedHandle (s : String) : Bool :=
  "resp_".toList.isPrefixOf s.toList || "conv_".toList.isPrefixOf s.toList

/-- A non-streaming `ChatResponse`, reduced to the two handle fields the
middleware reads. -/
structure ChatResponse where
  responseId : Option String
  conversationId : Option String
deriving DecidableEq, Repr

/-- Python `a or b` on optional strings. -/
def pyOr (a b : Option String) : Option String :=
  if optTruthy a then a else b

/-- `_extract_response_id` (lines 208-218): `response_id or conversation_id`
of a `ChatResponse` result; `none` when there is no result. -/
def extractResponseId : Option ChatResponse → Option String
  | none => none
  | some r => pyOr r.responseId r.conversationId

/-- The non-streaming store write of `process` (lines 154-159):
`elif agui_thread_id and context.result:` then store the extracted id only
when it is truthy and has a recognized prefix string. -/
def nonStreamingStoreUpdate (store : ThreadStore) (tid : Option String)
    (result : Option ChatResponse) : ThreadStore :=
  match tid, result with
  | some t, some r =>
      if t ≠ "" then
        match extractResponseId (some r) with
        | some nid =>
            if nid ≠ "" && isRecognizedHandle nid then storePut store t nid
            else store
        | none => store
      else store
  | _, _ => store

/-- One streaming `ChatResponseUpdate`, reduced to the fields
`_capture_response_id` reads. -/
structure ChatResponseUpdate where
  responseId : Option String
  conversationId : Option String
  contents : List Content
deriving DecidableEq, Repr

/-- The frontend-only tool names (`FRONTEND_ONLY_TOOLS`). -/
def frontendOnlyTools : List String :=
  ["filter_dashboard", "setThemeColor", "display_flight_list",
   "display_flight_detail", "display_historical_chart"]

/-- The per-update bookkeeping of `_capture_response_id` (lines 173-189):
track the last truthy response/conversation id and the last truthy
function-call tool name. -/
def captureStep (acc : Option String × Option String)
    (u : ChatResponseUpdate) : Option String × Option String :=
  let lastId := if optTruthy u.responseId then u.responseId else acc.1
  let lastId := if optTruthy u.conversationId then u.conversationId else lastId
  let lastTool :=
    u.contents.foldl
      (fun t c =>
        if isFunctionCall c && optTruthy c.name then c.name else t)
      acc.2
  (lastId, lastTool)

/-- The guarded store write `if agui_thread_id and last_response_id: if
last_response_id.startswith(("resp_", "conv_")): store[...] = ...`, which
appears verbatim in both branches of `_capture_response_id`'s
frontend-tool check (lines 195-206). -/
def storeWriteIfRecognized (store : ThreadStore) (tid lastId : Option String) :
    ThreadStore :=
  match tid, lastId with
  | some t, some rid =>
      if t ≠ "" ∧ rid ≠ "" then
        if isRecognizedHandle rid then storePut store t rid else store
      else store
  | _, _ => store

/-- The store write performed after the stream of `_capture_response_id`
is exhausted (lines 191-206). -/
def captureStoreUpdate (store : ThreadStore) (tid : Option String)
    (updates : List ChatResponseUpdate) : ThreadStore :=
  let acc := updates.foldl captureStep (none, none)
  let lastId := acc.1
  let lastTool := acc.2
  let endedWithFrontend : Bool :=
    match lastTool with
    | some n => if n ≠ "" then frontendOnlyTools.contains n else false
    | none => false
  if endedWithFrontend then storeWriteIfRecognized store tid lastId
  else storeWriteIfRecognized store tid lastId

/-! ## The request path of `ResponsesApiThreadMiddleware.process` -/

/-- The pre-call phase of `process` (lines 116-138): decide CONTINUING vs
FRESH from the thread id and store, filter the outbound messages
accordingly, and record what `options\x7bconversation_id\x7d` was set to
(`none` = option left untouched, `some v` = set to `v`). -/
def preProcess (store : ThreadStore) (tid : Option String)
    (msgs : List Message) : List Message × Option (Option String) :=
  match tid with
  | some t =>
      if t ≠ "" then
        match store t with
        | some stored => (filterMessagesForApi msgs, some (some stored))
        | none => (filterMessagesForFreshStart msgs, some none)
      else (msgs, none)
  | none => (msgs, none)

/-- `process` on the non-streaming path (lines 81-159), with the upstream
`call_next` result supplied as an `Except`: an upstream failure propagates
and skips the post-call store write.  Returns the final store and, on
success, the outbound message list and the conversation-id option that were
in effect for the upstream call. -/
def processNonStreaming (store : ThreadStore) (tid : Option String)
    (msgs : List Message) (upstream : Except String (Option ChatResponse)) :
    ThreadStore × Except String (List Message × Option (Option String)) :=
  let pre := preProcess store tid msgs
  match upstream with
  | .error e => (store, .error e)
  | .ok result => (nonStreamingStoreUpdate store tid result, .ok pre)

/-! ## Basic lemmas about the set model -/

theorem mem_addSet (s : List String) (x y : String) :
    y ∈ addSet s x ↔ y ∈ s ∨ y = x := by
  unfold addSet
  by_cases h : x ∈ s
  · simp only [if_pos h]
    exact ⟨Or.inl, fun h' => h'.elim id (fun e => e ▸ h)⟩
  · simp [if_neg h]

theorem addSet_nodup (s : List String) (x : String) (h : s.Nodup) :
    (addSet s x).Nodup := by
  unfold addSet
  by_cases hx : x ∈ s
  · simpa [if_pos hx]
  · simp [if_neg hx, List.nodup_append, h, hx]

theorem mem_removeSet (s : List String) (x y : String) :
    y ∈ removeSet s x ↔ y ∈ s ∧ y ≠ x := by
  simp [removeSet, List.mem_filter]

theorem removeSet_nodup (s : List String) (x : String) (h : s.Nodup) :
    (removeSet s x).Nodup :=
  h.filter _

/-! ## The backward user-message scan -/

theorem findLastUser_none (l : List Message) (h : findLastUser l = none) :
    ∀ m ∈ l, m.role ≠ Role.user := by
  induction l with
  | nil => simp
  | cons a t ih =>
      unfold findLastUser at h
      rcases hfl : findLastUser t with _ | u
      · rw [hfl] at h
        intro m hm
        rcases List.mem_cons.mp hm with rfl | hm
        · intro hrole
          simp [hrole] at h
        · exact ih hfl m hm
      · rw [hfl] at h
        simp at h

theorem findLastUser_some (l : List Message) (u : Message)
    (h : findLastUser l = some u) :
    u.role = Role.user ∧
      ∃ pre post, l = pre ++ u :: post ∧ ∀ m ∈ post, m.role ≠ Role.user := by
  induction l with
  | nil => simp [findLastUser] at h
  | cons a t ih =>
      unfold findLastUser at h
      rcases hfl : findLastUser t with _ | u'
      · rw [hfl] at h
        by_cases hrole : a.role == Role.user
        · simp only [if_pos hrole, Option.some.injEq] at h
          subst h
          refine ⟨by simpa using hrole, [], t, rfl, findLastUser_none t hfl⟩
        · simp [hrole] at h
      · rw [hfl] at h
        obtain rfl : u' = u := by simpa using h
        obtain ⟨hu, pre, post, hsplit, hpost⟩ := ih hfl
        exact ⟨hu, a :: pre, post, by simp [hsplit], hpost⟩

theorem filter_length_eq_self {α : Type} (p : α → Bool) (l : List α)
    (h : (l.filter p).length = l.length) : l.filter p = l := by
  induction l with
  | nil => rfl
  | cons a t ih =>
      by_cases hp : p a
      · simp only [List.filter_cons, if_pos hp, List.length_cons,
          Nat.add_right_cancel_iff] at h ⊢
        rw [ih h]
      · exfalso
        simp only [List.filter_cons, if_neg hp, List.length_cons] at h
        have := List.length_filter_le p t
        omega

/-! ## C3: continuing-mode filtering on a trailing tool result -/

/-- C3: for every non-empty message sequence whose last message has the tool
role, continuing-mode filtering (`_filter_messages_for_api`) returns exactly
the single-element sequence holding that last tool-result message. -/
theorem continuing_filter_tool_result (msgs : List Message) (last : Message)
    (h1 : msgs.getLast? = some last) (h2 : last.role = Role.tool) :
    filterMessagesForApi msgs = [last] := by
  unfold filterMessagesForApi
  rw [h1]
  simp [h2]

theorem continuing_filter_tool_result_witness :
    ([(⟨Role.user, []⟩ : Message), ⟨Role.tool, []⟩].getLast? =
        some (⟨Role.tool, []⟩ : Message)) ∧
      filterMessagesForApi [⟨Role.user, []⟩, ⟨Role.tool, []⟩] =
        [⟨Role.tool, []⟩] :=
  ⟨by decide, continuing_filter_tool_result _ _ (by decide) rfl⟩

/-! ## C4: continuing-mode filtering without a trailing tool result -/

/-- C4: for every non-empty message sequence whose last message is not
tool-role: when the sequence contains a user message, continuing-mode
filtering returns exactly the single-element sequence holding the most
recent user message; when there is no user message, the input is returned
unchanged. -/
theorem continuing_filter_user_only (msgs : List Message) (last : Message)
    (h1 : msgs.getLast? = some last) (h2 : last.role ≠ Role.tool) :
    ((∃ m ∈ msgs, m.role = Role.user) →
      ∃ u, filterMessagesForApi msgs = [u] ∧ u.role = Role.user ∧
        ∃ pre post, msgs = pre ++ u :: post ∧ ∀ m ∈ post, m.role ≠ Role.user)
    ∧ ((∀ m ∈ msgs, m.role ≠ Role.user) → filterMessagesForApi msgs = msgs) := by
  have hred : filterMessagesForApi msgs =
      match findLastUser msgs with
      | some u => [u]
      | none => msgs := by
    unfold filterMessagesForApi
    rw [h1]
    simp [h2]
  rcases hfl : findLastUser msgs with _ | u
  · rw [hfl] at hred
    refine ⟨fun ⟨m, hm, hrole⟩ => absurd hrole (findLastUser_none msgs hfl m hm),
      fun _ => hred⟩
  · rw [hfl] at hred
    obtain ⟨hu, pre, post, hsplit, hpost⟩ := findLastUser_some msgs u hfl
    refine ⟨fun _ => ⟨u, hred, hu, pre, post, hsplit, hpost⟩, fun hall => ?_⟩
    exact absurd hu (hall u (by rw [hsplit]; simp))

theorem continuing_filter_user_only_witness :
    ∃ u, filterMessagesForApi [(⟨Role.user, []⟩ : Message), ⟨Role.assistant, []⟩] = [u] ∧
      u.role = Role.user := by
  obtain ⟨u, hu1, hu2, -⟩ :=
    (continuing_filter_user_only [⟨Role.user, []⟩, ⟨Role.assistant, []⟩]
        ⟨Role.assistant, []⟩ (by decide) (by decide)).1
      ⟨⟨Role.user, []⟩, by simp, rfl⟩
  exact ⟨u, hu1, hu2⟩

/-! ## C5: fresh-mode filtering removes exactly the tool-related messages -/

/-- C5: fresh-mode filtering equals an order-preserving `List.filter` that
drops exactly the tool-role messages and the assistant messages with
tool-related content (function call, function result, or content with a
truthy call id), and keeps everything else; a sequence with no such
messages is returned unchanged. -/
theorem fresh_filter_exact (msgs : List Message) :
    filterMessagesForFreshStart msgs = msgs.filter keepForFreshStart ∧
      ((∀ m ∈ msgs, keepForFreshStart m = true) →
        filterMessagesForFreshStart msgs = msgs) := by
  have h1 : filterMessagesForFreshStart msgs = msgs.filter keepForFreshStart := by
    unfold filterMessagesForFreshStart
    by_cases h : (msgs.filter keepForFreshStart).length = msgs.length
    · rw [if_neg (by simpa using h)]
      exact (filter_length_eq_self _ _ h).symm
    · rw [if_pos (by simpa using h)]
  exact ⟨h1, fun hall => by rw [h1, List.filter_eq_self.mpr hall]⟩

theorem fresh_filter_exact_witness :
    (∀ m ∈ [(⟨Role.user, []⟩ : Message), ⟨Role.assistant, [⟨"text", none, none⟩]⟩],
        keepForFreshStart m = true) ∧
      filterMessagesForFreshStart
          [⟨Role.user, []⟩, ⟨Role.assistant, [⟨"text", none, none⟩]⟩] =
        [⟨Role.user, []⟩, ⟨Role.assistant, [⟨"text", none, none⟩]⟩] :=
  ⟨by decide,
    (fresh_filter_exact [⟨Role.user, []⟩, ⟨Role.assistant, [⟨"text", none, none⟩]⟩]).2
      (by decide)⟩

/-! ## C9: the Assistants-API fresh-start filter keeps at most one message -/

/-- C9: the Assistants-API fresh-start filter reduces any sequence to at
most one message: exactly the most recent user message when one exists,
and the empty sequence when none exists. -/
theorem assistants_fresh_minimal (msgs : List Message) :
    (assistantsFilterFreshStart msgs).length ≤ 1 ∧
      ((∃ m ∈ msgs, m.role = Role.user) →
        ∃ u, assistantsFilterFreshStart msgs = [u] ∧ u.role = Role.user ∧
          ∃ pre post, msgs = pre ++ u :: post ∧ ∀ m ∈ post, m.role ≠ Role.user)
      ∧ ((∀ m ∈ msgs, m.role ≠ Role.user) → assistantsFilterFreshStart msgs = []) := by
  unfold assistantsFilterFreshStart
  by_cases he : msgs.isEmpty
  · obtain rfl : msgs = [] := List.isEmpty_iff.mp he
    simp
  · rw [if_neg he]
    rcases hfl : findLastUser msgs with _ | u
    · refine ⟨by simp, fun ⟨m, hm, hrole⟩ =>
        absurd hrole (findLastUser_none msgs hfl m hm), fun _ => rfl⟩
    · obtain ⟨hu, pre, post, hsplit, hpost⟩ := findLastUser_some msgs u hfl
      refine ⟨by simp, fun _ => ⟨u, rfl, hu, pre, post, hsplit, hpost⟩,
        fun hall => absurd hu (hall u (by rw [hsplit]; simp))⟩

theorem assistants_fresh_minimal_witness :
    (assistantsFilterFreshStart
        [(⟨Role.system, []⟩ : Message), ⟨Role.user, []⟩, ⟨Role.assistant, []⟩]).length ≤ 1 ∧
      ∃ u, assistantsFilterFreshStart
          [(⟨Role.system, []⟩ : Message), ⟨Role.user, []⟩, ⟨Role.assistant, []⟩] = [u] ∧
        u.role = Role.user :=
  ⟨(assistants_fresh_minimal _).1,
    match (assistants_fresh_minimal
        [(⟨Role.system, []⟩ : Message), ⟨Role.user, []⟩, ⟨Role.assistant, []⟩]).2.1
      ⟨⟨Role.user, []⟩, by simp, rfl⟩ with
    | ⟨u, h1, h2, _⟩ => ⟨u, h1, h2⟩⟩

/-! ## C6: handle hygiene -/

theorem storePut_lookup (store : ThreadStore) (t nid k : String) (v : String)
    (h : storePut store t nid k = some v) :
    store k = some v ∨ v = nid := by
  unfold storePut at h
  by_cases hk : k = t
  · rw [if_pos hk] at h
    exact Or.inr (Option.some.injEq .. ▸ h.symm ▸ rfl)
  · rw [if_neg hk] at h
    exact Or.inl h

/-- C6: on both the non-streaming path (`process`, lines 154-159) and the
streaming path (`_capture_response_id`, lines 193-206), a value that does
not carry a recognized handle pattern string is never written into the
thread store: any binding in the updated store is either an old binding or
a recognized handle. -/
theorem storeWriteIfRecognized_lookup (store : ThreadStore)
    (tid lastId : Option String) (k v : String)
    (h : storeWriteIfRecognized store tid lastId k = some v) :
    store k = some v ∨ isRecognizedHandle v = true := by
  unfold storeWriteIfRecognized at h
  rcases tid with _ | t <;> rcases lastId with _ | rid <;>
    simp only [] at h
  · exact Or.inl h
  · exact Or.inl h
  · exact Or.inl h
  · by_cases hg : t ≠ "" ∧ rid ≠ ""
    · rw [if_pos hg] at h
      by_cases hrec : isRecognizedHandle rid = true
      · rw [if_pos hrec] at h
        rcases storePut_lookup store t rid k v h with h' | rfl
        · exact Or.inl h'
        · exact Or.inr hrec
      · rw [if_neg hrec] at h
        exact Or.inl h
    · rw [if_neg hg] at h
      exact Or.inl h

/-- C6: on both the non-streaming path (`process`, lines 154-159) and the
streaming path (`_capture_response_id`, lines 193-206), a value that does
not carry a recognized handle pattern string is never written into the
thread store: any binding in the updated store is either an old binding or
a recognized handle. -/
theorem handle_hygiene (store : ThreadStore) (tid : Option String)
    (result : Option ChatResponse) (updates : List ChatResponseUpdate)
    (k v : String) :
    (nonStreamingStoreUpdate store tid result k = some v →
      store k = some v ∨ isRecognizedHandle v = true) ∧
    (captureStoreUpdate store tid updates k = some v →
      store k = some v ∨ isRecognizedHandle v = true) := by
  constructor
  · intro h
    unfold nonStreamingStoreUpdate at h
    rcases tid with _ | t <;> rcases result with _ | r <;>
      simp only [] at h
    · exact Or.inl h
    · exact Or.inl h
    · exact Or.inl h
    · by_cases ht : t ≠ ""
      · rw [if_pos ht] at h
        rcases hex : extractResponseId (some r) with _ | nid <;> rw [hex] at h <;>
          try simp only [] at h
        · exact Or.inl h
        · by_cases hguard : (decide (nid ≠ "") && isRecognizedHandle nid) = true
          · rw [if_pos hguard] at h
            rcases storePut_lookup store t nid k v h with h' | rfl
            · exact Or.inl h'
            · exact Or.inr (Bool.and_eq_true .. ▸ hguard).2
          · rw [if_neg hguard] at h
            exact Or.inl h
      · rw [if_neg ht] at h
        exact Or.inl h
  · intro h
    unfold captureStoreUpdate at h
    split at h <;> exact storeWriteIfRecognized_lookup _ _ _ _ _ h

theorem handle_hygiene_witness :
    ((fun _ => (none : Option String)) : ThreadStore) "t" = some "resp_1" ∨
      isRecognizedHandle "resp_1" = true :=
  (handle_hygiene (fun _ => none) (some "t")
      (some ⟨some "resp_1", none⟩) [] "t" "resp_1").1 (by decide)

/-! ## C8: upstream failure leaves the store untouched -/

/-- C8: when the upstream call fails, `process` propagates the failure
unchanged and performs no thread-store mutation (the post-call store write
is skipped; there is no retry). -/
theorem upstream_failure_no_mutation (store : ThreadStore) (tid : Option String)
    (msgs : List Message) (e : String) :
    processNonStreaming store tid msgs (.error e) = (store, .error e) := rfl

/-! ## C10: no thread id means no filtering, no option, no store write -/

/-- C10: when the thread-id context variable holds none, `process` leaves
the outbound message list unmodified, never sets the conversation-id
option, and (non-streaming) performs no thread-store write. -/
theorem no_thread_id_frame (store : ThreadStore) (msgs : List Message)
    (r : Option ChatResponse) :
    processNonStreaming store none msgs (.ok r) = (store, .ok (msgs, none)) := by
  cases r <;> rfl

/-! ## Decomposition of the normalizer event loop -/

theorem runNorm_append (s : NormState) (l1 l2 : List AGEvent) :
    runNorm s (l1 ++ l2) =
      ((runNorm (runNorm s l1).1 l2).1,
        (runNorm s l1).2 ++ (runNorm (runNorm s l1).1 l2).2) := by
  induction l1 generalizing s with
  | nil => simp [runNorm]
  | cons e rest ih =>
      simp only [List.cons_append, runNorm]
      rw [show rest.append l2 = rest ++ l2 from rfl, ih]
      simp [List.append_assoc]

/-! ## C2: behaviour at and after run-finished -/

/-- C2 counterexample: the loop keeps processing after run-finished.  On
the input `[run-finished, other "x"]` the normalizer emits run-finished and
then forwards the later event, so run-finished is not the last event
emitted. -/
theorem run_finished_not_last_cx :
    normOutput [AGEvent.runFinished, AGEvent.other "x"] =
        [AGEvent.runFinished, AGEvent.other "x"] ∧
      (normOutput [AGEvent.runFinished, AGEvent.other "x"]).getLast? ≠
        some AGEvent.runFinished := by
  exact ⟨rfl, by decide⟩

/-- C2 amended: when run-finished is the last event of the input stream it
is the last event emitted; the normalizer does not terminate its loop at
run-finished, so input events after a run-finished are still processed
(with reset per-stream state) and emission continues. -/
theorem run_finished_last (s : NormState) (evs : List AGEvent) :
    ((runNorm s (evs ++ [AGEvent.runFinished])).2).getLast? =
      some AGEvent.runFinished := by
  rw [runNorm_append]
  simp only [runNorm, step, List.append_nil]
  rw [← List.append_assoc]
  exact List.getLast?_concat _

/-! ## C7: duplicate tool-call suppression -/

/-- Recognizer for tool-call-start events. -/
def isToolStartEv : AGEvent → Bool
  | .toolStart _ _ => true
  | _ => false

/-- Does an event carry the tool call id `i`? -/
def mentionsToolId (i : String) : AGEvent → Bool
  | .toolStart i' _ => i' == i
  | .toolArgs i' => i' == i
  | .toolEnd i' => i' == i
  | .toolResult i' => i' == i
  | _ => false

theorem step_tool_fields (s : NormState) (e : AGEvent)
    (h1 : isToolStartEv e = false) (h2 : e ≠ AGEvent.runFinished) :
    (step s e).1.emittedToolCalls = s.emittedToolCalls ∧
      (step s e).1.emittedToolNames = s.emittedToolNames ∧
      (∀ x, x ∈ (step s e).1.suppressedToolIds → x ∈ s.suppressedToolIds) ∧
      (∀ n, cToolName (step s e).2 n = 0) := by
  cases e with
  | textStart m => simp [step, cToolName, List.countP_nil]
  | textContent m =>
      rcases hp : s.pendingTextStart with _ | p
      · by_cases hm0 : m = "" <;>
          simp [step, hp, hm0, cToolName, List.countP_cons, List.countP_nil,
            isToolStartName]
      · by_cases hpm : p = m
        · subst hpm
          by_cases hm0 : p = "" <;>
            simp [step, hp, hm0, cToolName, List.countP_cons,
              List.countP_nil, isToolStartName]
        · by_cases hm0 : m = ""
          · subst hm0
            simp [step, hp, hpm, cToolName, List.countP_cons,
              List.countP_nil, isToolStartName]
          · simp [step, hp, hpm, hm0, cToolName, List.countP_cons,
              List.countP_nil, isToolStartName]
  | textEnd m =>
      by_cases hm : m ∈ s.emittedMessages <;>
        simp [step, hm, cToolName, List.countP_cons, List.countP_nil,
          isToolStartName]
  | toolStart i n => simp [isToolStartEv] at h1
  | toolArgs i =>
      by_cases hi : i ≠ "" ∧ i ∈ s.suppressedToolIds <;>
        simp [step, hi, cToolName, List.countP_cons, List.countP_nil,
          isToolStartName]
  | toolEnd i =>
      by_cases hi : i ≠ "" ∧ i ∈ s.suppressedToolIds <;>
        simp [step, hi, cToolName, List.countP_cons, List.countP_nil,
          isToolStartName]
  | toolResult i =>
      by_cases hi : i ≠ "" ∧ i ∈ s.suppressedToolIds
      · obtain ⟨hi1, him⟩ := hi
        refine ⟨by simp [step, hi1, him], by simp [step, hi1, him],
          fun x hx => ?_,
          fun n => by simp [step, hi1, him, cToolName, List.countP_nil]⟩
        simp only [step, hi1, him, and_self, ne_eq, not_false_iff,
          if_pos, mem_removeSet] at hx
        exact hx.1
      · simp [step, hi, cToolName, List.countP_cons, List.countP_nil,
          isToolStartName]
  | runFinished => exact absurd rfl h2
  | messagesSnapshot => simp [step, cToolName, List.countP_nil]
  | other t =>
      simp [step, cToolName, List.countP_cons, List.countP_nil,
        isToolStartName]

theorem runNorm_no_toolstart (s : NormState) (evs : List AGEvent)
    (hevs : ∀ e ∈ evs, isToolStartEv e = false ∧ e ≠ AGEvent.runFinished) :
    (runNorm s evs).1.emittedToolCalls = s.emittedToolCalls ∧
      (runNorm s evs).1.emittedToolNames = s.emittedToolNames ∧
      (∀ x, x ∈ (runNorm s evs).1.suppressedToolIds →
        x ∈ s.suppressedToolIds) ∧
      (∀ n, cToolName (runNorm s evs).2 n = 0) := by
  induction evs generalizing s with
  | nil => simp [runNorm, cToolName, List.countP_nil]
  | cons e rest ih =>
      obtain ⟨h1, h2⟩ := hevs e (by simp)
      obtain ⟨hc, hn, hs, ho⟩ := step_tool_fields s e h1 h2
      obtain ⟨ihc, ihn, ihs, iho⟩ :=
        ih (step s e).1 (fun e' he' => hevs e' (by simp [he']))
      refine ⟨by rw [runNorm, ihc, hc], by rw [runNorm, ihn, hn],
        fun x hx => ?_, fun n => ?_⟩
      · exact hs x (ihs x (by simpa [runNorm] using hx))
      · simp only [runNorm, cToolName, List.countP_append]
        have := ho n
        have := iho n
        simp only [cToolName] at *
        omega

/-- The state invariant carried across the segment between the first and
the duplicate tool-call-start: the duplicated name has been emitted, the
second call id is unseen and unsuppressed. -/
def C7Inv (nm i2 : String) (s : NormState) : Prop :=
  nm ∈ s.emittedToolNames ∧ i2 ∉ s.emittedToolCalls ∧
    i2 ∉ s.suppressedToolIds

theorem c7_step_of_fields (nm i2 : String) (s : NormState) (e : AGEvent)
    (hJ : C7Inv nm i2 s)
    (h1 : isToolStartEv e = false) (h2 : e ≠ AGEvent.runFinished) :
    C7Inv nm i2 (step s e).1 ∧ cToolName (step s e).2 nm = 0 := by
  obtain ⟨hnm, hcalls, hsupp⟩ := hJ
  obtain ⟨hc, hn, hs, ho⟩ := step_tool_fields s e h1 h2
  exact ⟨⟨by rw [hn]; exact hnm, by rw [hc]; exact hcalls,
    fun hx => hsupp (hs _ hx)⟩, ho nm⟩

theorem c7_step (nm i2 : String) (s : NormState) (e : AGEvent)
    (hJ : C7Inv nm i2 s) (hrf : e ≠ AGEvent.runFinished)
    (hm : mentionsToolId i2 e = false) :
    C7Inv nm i2 (step s e).1 ∧ cToolName (step s e).2 nm = 0 := by
  cases e with
  | toolStart i n =>
      obtain ⟨hnm, hcalls, hsupp⟩ := hJ
      have hi2 : i ≠ i2 := by simpa [mentionsToolId] using hm
      have hi2' : ¬(i2 = i) := fun h => hi2 h.symm
      by_cases hi : i = ""
      · subst hi
        by_cases hb2 : n ∈ s.emittedToolNames
        · refine ⟨⟨?_, ?_, ?_⟩, ?_⟩ <;>
            simp [step, hb2, hnm, hcalls, hsupp, cToolName, List.countP_nil]
        · have hnnm : ¬(n = nm) := fun h => hb2 (h ▸ hnm)
          refine ⟨⟨?_, ?_, ?_⟩, ?_⟩ <;>
            simp [step, hb2, mem_addSet, hnm, hcalls, hsupp, hnnm,
              cToolName, List.countP_cons, List.countP_nil, isToolStartName]
      · by_cases hb1 : i ∈ s.emittedToolCalls
        · refine ⟨⟨?_, ?_, ?_⟩, ?_⟩ <;>
            simp [step, hi, hb1, mem_addSet, hnm, hcalls, hsupp, hi2',
              cToolName, List.countP_nil]
        · by_cases hb2 : n ∈ s.emittedToolNames
          · refine ⟨⟨?_, ?_, ?_⟩, ?_⟩ <;>
              simp [step, hi, hb1, hb2, mem_addSet, hnm, hcalls, hsupp, hi2',
                cToolName, List.countP_nil]
          · have hnnm : ¬(n = nm) := fun h => hb2 (h ▸ hnm)
            refine ⟨⟨?_, ?_, ?_⟩, ?_⟩ <;>
              simp [step, hi, hb1, hb2, mem_addSet, hnm, hcalls, hsupp, hi2',
                hnnm, cToolName, List.countP_cons, List.countP_nil,
                isToolStartName]
  | toolResult i =>
      obtain ⟨hnm, hcalls, hsupp⟩ := hJ
      have hi2 : i ≠ i2 := by simpa [mentionsToolId] using hm
      by_cases hi : i ≠ "" ∧ i ∈ s.suppressedToolIds <;>
        (refine ⟨⟨?_, ?_, ?_⟩, ?_⟩ <;>
          simp [step, hi, mem_removeSet, hnm, hcalls, hsupp,
            cToolName, List.countP_cons, List.countP_nil, isToolStartName])
  | runFinished => exact absurd rfl hrf
  | textStart m => exact c7_step_of_fields nm i2 s _ hJ rfl (by simp)
  | textContent m => exact c7_step_of_fields nm i2 s _ hJ rfl (by simp)
  | textEnd m => exact c7_step_of_fields nm i2 s _ hJ rfl (by simp)
  | toolArgs i => exact c7_step_of_fields nm i2 s _ hJ rfl (by simp)
  | toolEnd i => exact c7_step_of_fields nm i2 s _ hJ rfl (by simp)
  | messagesSnapshot => exact c7_step_of_fields nm i2 s _ hJ rfl (by simp)
  | other t => exact c7_step_of_fields nm i2 s _ hJ rfl (by simp)

theorem c7_run (nm i2 : String) (s : NormState) (evs : List AGEvent)
    (hJ : C7Inv nm i2 s)
    (hevs : ∀ e ∈ evs, e ≠ AGEvent.runFinished ∧ mentionsToolId i2 e = false) :
    C7Inv nm i2 (runNorm s evs).1 ∧ cToolName (runNorm s evs).2 nm = 0 := by
  induction evs generalizing s with
  | nil => simp [runNorm, cToolName, List.countP_nil, hJ]
  | cons e rest ih =>
      obtain ⟨h1, h2⟩ := hevs e (by simp)
      obtain ⟨hJ', ho⟩ := c7_step nm i2 s e hJ h1 h2
      obtain ⟨ihJ, iho⟩ := ih (step s e).1 hJ' (fun e' he' => hevs e' (by simp [he']))
      refine ⟨by simpa [runNorm] using ihJ, ?_⟩
      simp only [runNorm, cToolName, List.countP_append]
      simp only [cToolName] at ho iho
      omega

/-- C7 counterexample: the dedup sets are cleared when run-finished is
processed, and processing continues afterwards; so on the input
`[tool-call-start("a","f"), run-finished, tool-call-start("b","f")]` — a
stream containing two tool-call-start events with the same name and
different ids — the normalizer emits BOTH starts instead of only the
first. -/
theorem duplicate_tool_suppression_cx :
    normOutput [AGEvent.toolStart "a" "f", AGEvent.runFinished,
        AGEvent.toolStart "b" "f"] =
      [AGEvent.toolStart "a" "f", AGEvent.runFinished,
        AGEvent.toolStart "b" "f"] ∧
      cToolName (normOutput [AGEvent.toolStart "a" "f", AGEvent.runFinished,
        AGEvent.toolStart "b" "f"]) "f" = 2 :=
  ⟨rfl, rfl⟩

theorem c7_tail (nm id2 : String) (s : NormState) (hid2 : id2 ≠ "")
    (hJ : C7Inv nm id2 s) :
    (runNorm s [AGEvent.toolStart id2 nm, AGEvent.toolArgs id2,
        AGEvent.toolEnd id2, AGEvent.toolResult id2]).2 = [] ∧
      id2 ∉ (runNorm s [AGEvent.toolStart id2 nm, AGEvent.toolArgs id2,
        AGEvent.toolEnd id2, AGEvent.toolResult id2]).1.suppressedToolIds := by
  obtain ⟨hnm, hcalls, hsupp⟩ := hJ
  have hA : step s (AGEvent.toolStart id2 nm) =
      ({ s with pendingTextStart := none,
                suppressedToolIds := addSet s.suppressedToolIds id2 }, []) := by
    simp [step, hcalls, hnm, hid2]
  set s3 : NormState := { s with
    pendingTextStart := none,
    suppressedToolIds := addSet s.suppressedToolIds id2 } with hs3
  have hmem : id2 ∈ s3.suppressedToolIds := by
    rw [hs3]
    exact (mem_addSet _ _ _).mpr (Or.inr rfl)
  have hB : step s3 (AGEvent.toolArgs id2) = (s3, []) := by
    simp [step, hid2, hmem]
  have hC : step s3 (AGEvent.toolEnd id2) = (s3, []) := by
    simp [step, hid2, hmem]
  have hD : step s3 (AGEvent.toolResult id2) =
      ({ s3 with suppressedToolIds := removeSet s3.suppressedToolIds id2 },
       []) := by
    simp [step, hid2, hmem]
  constructor
  · simp only [runNorm, hA, hB, hC, hD, List.append_nil, List.nil_append]
  · simp only [runNorm, hA, hB, hC, hD]
    simp [mem_removeSet]

/-- C7 amended: given two tool-call-start events with the same name and
different call ids in one run — no run-finished between them, no earlier
tool-call-start before the first, no event carrying the second id between
them, and a nonempty second id — the normalizer emits the first start only,
suppresses the second together with its subsequent args/end/result events,
and drops the second id from the suppression set once its result event is
consumed. -/
theorem duplicate_tool_suppression (pre mid : List AGEvent)
    (id1 id2 nm : String)
    (hid2 : id2 ≠ "") (hne : id1 ≠ id2)
    (hpre : ∀ e ∈ pre, isToolStartEv e = false ∧ e ≠ AGEvent.runFinished)
    (hmid : ∀ e ∈ mid, e ≠ AGEvent.runFinished ∧
      mentionsToolId id2 e = false) :
    normOutput (pre ++ AGEvent.toolStart id1 nm :: (mid ++
        [AGEvent.toolStart id2 nm, AGEvent.toolArgs id2,
          AGEvent.toolEnd id2, AGEvent.toolResult id2])) =
      normOutput (pre ++ AGEvent.toolStart id1 nm :: mid) ∧
    AGEvent.toolStart id1 nm ∈
      normOutput (pre ++ AGEvent.toolStart id1 nm :: (mid ++
        [AGEvent.toolStart id2 nm, AGEvent.toolArgs id2,
          AGEvent.toolEnd id2, AGEvent.toolResult id2])) ∧
    cToolName (normOutput (pre ++ AGEvent.toolStart id1 nm :: (mid ++
        [AGEvent.toolStart id2 nm, AGEvent.toolArgs id2,
          AGEvent.toolEnd id2, AGEvent.toolResult id2]))) nm = 1 ∧
    id2 ∉ (runNorm NormState.init (pre ++ AGEvent.toolStart id1 nm :: (mid ++
        [AGEvent.toolStart id2 nm, AGEvent.toolArgs id2,
          AGEvent.toolEnd id2, AGEvent.toolResult id2]))).1.suppressedToolIds
    := by
  obtain ⟨hc0, hn0, hs0, ho0⟩ := runNorm_no_toolstart NormState.init pre hpre
  have hne' : ¬(id2 = id1) := fun h => hne h.symm
  set s0 := (runNorm NormState.init pre).1 with hs0def
  have hsupp0 : s0.suppressedToolIds = [] := by
    refine List.eq_nil_iff_forall_not_mem.mpr fun x hx => ?_
    simpa [NormState.init] using hs0 x hx
  have hstep1out : (step s0 (AGEvent.toolStart id1 nm)).2 =
      [AGEvent.toolStart id1 nm] := by
    simp [step, hc0, hn0, NormState.init]
  have hJ1 : C7Inv nm id2 (step s0 (AGEvent.toolStart id1 nm)).1 := by
    refine ⟨?_, ?_, ?_⟩ <;>
      simp [step, hc0, hn0, hsupp0, mem_addSet, addSet, hne', NormState.init]
  set s1 := (step s0 (AGEvent.toolStart id1 nm)).1 with hs1def
  obtain ⟨hJ2, hoM⟩ := c7_run nm id2 s1 mid hJ1 hmid
  set s2 := (runNorm s1 mid).1 with hs2def
  obtain ⟨htailOut, htailSupp⟩ := c7_tail nm id2 s2 hid2 hJ2
  have expandOut : ∀ rest : List AGEvent,
      (runNorm NormState.init
          (pre ++ AGEvent.toolStart id1 nm :: rest)).2 =
        (runNorm NormState.init pre).2 ++
          ((step s0 (AGEvent.toolStart id1 nm)).2 ++ (runNorm s1 rest).2) := by
    intro rest
    rw [runNorm_append]
    simp only [runNorm]
  have expandSt : ∀ rest : List AGEvent,
      (runNorm NormState.init
          (pre ++ AGEvent.toolStart id1 nm :: rest)).1 =
        (runNorm s1 rest).1 := by
    intro rest
    rw [runNorm_append]
    simp only [runNorm]
  have hmidtail : (runNorm s1 (mid ++ [AGEvent.toolStart id2 nm,
      AGEvent.toolArgs id2, AGEvent.toolEnd id2,
      AGEvent.toolResult id2])).2 = (runNorm s1 mid).2 := by
    rw [runNorm_append]
    rw [← hs2def, htailOut, List.append_nil]
  simp only [normOutput]
  refine ⟨?_, ?_, ?_, ?_⟩
  · rw [expandOut, expandOut, hmidtail]
  · rw [expandOut, hstep1out]
    simp
  · rw [expandOut, hmidtail, hstep1out]
    have h0 := ho0 nm
    have hM := hoM
    simp only [cToolName, List.countP_append, List.countP_cons,
      List.countP_nil, isToolStartName] at h0 hM ⊢
    simp [h0, hM]
  · rw [expandSt, runNorm_append, ← hs2def]
    exact htailSupp

theorem duplicate_tool_suppression_witness :
    normOutput [AGEvent.toolStart "a" "f", AGEvent.toolStart "b" "f",
        AGEvent.toolArgs "b", AGEvent.toolEnd "b", AGEvent.toolResult "b"] =
      normOutput [AGEvent.toolStart "a" "f"] ∧
    cToolName (normOutput [AGEvent.toolStart "a" "f",
        AGEvent.toolStart "b" "f", AGEvent.toolArgs "b", AGEvent.toolEnd "b",
        AGEvent.toolResult "b"]) "f" = 1 := by
  have h := duplicate_tool_suppression [] [] "a" "b" "f" (by decide)
    (by decide) (by simp) (by simp)
  exact ⟨by simpa using h.1, by simpa using h.2.2.1⟩

/-! ## C1: stream well-formedness -/

theorem cStart_append (l1 l2 : List AGEvent) (m : String) :
    cStart (l1 ++ l2) m = cStart l1 m + cStart l2 m :=
  List.countP_append _ _ _

theorem cEnd_append (l1 l2 : List AGEvent) (m : String) :
    cEnd (l1 ++ l2) m = cEnd l1 m + cEnd l2 m :=
  List.countP_append _ _ _

theorem cToolId_append (l1 l2 : List AGEvent) (i : String) :
    cToolId (l1 ++ l2) i = cToolId l1 i + cToolId l2 i :=
  List.countP_append _ _ _

theorem cToolName_append (l1 l2 : List AGEvent) (n : String) :
    cToolName (l1 ++ l2) n = cToolName l1 n + cToolName l2 n :=
  List.countP_append _ _ _

/-- An input event is good for the well-formedness statement: its message
id or tool call id is nonempty, and it is not a run-finished (the single
terminal run-finished is appended separately). -/
def GoodEvent : AGEvent → Bool
  | .textStart m => !(m == "")
  | .textContent m => !(m == "")
  | .textEnd m => !(m == "")
  | .toolStart i _ => !(i == "")
  | .toolArgs i => !(i == "")
  | .toolEnd i => !(i == "")
  | .toolResult i => !(i == "")
  | .runFinished => false
  | .messagesSnapshot => true
  | .other _ => true

/-- Invariant tying the consumed input prefix, the emitted output, and the
normalizer state, for a prefix containing no run-finished event. -/
structure NormInv (consumed out : List AGEvent) (s : NormState) : Prop where
  startEnd : ∀ m, cStart out m =
    cEnd out m + (if m ∈ s.emittedMessages then 1 else 0)
  openContent : ∀ m ∈ s.emittedMessages, m ∈ s.messagesWithContent
  openNodup : s.emittedMessages.Nodup
  startBound : ∀ m, cStart out m +
    (if s.pendingTextStart = some m then 1 else 0) ≤ countTS consumed m
  toolId : ∀ i, i ≠ "" →
    cToolId out i = (if i ∈ s.emittedToolCalls then 1 else 0)
  toolIdEmpty : cToolId out "" = 0
  toolName : ∀ n, cToolName out n = (if n ∈ s.emittedToolNames then 1 else 0)
  noSnap : AGEvent.messagesSnapshot ∉ out

theorem NormInv_init : NormInv [] [] NormState.init := by
  refine ⟨?_, ?_, ?_, ?_, ?_, ?_, ?_, ?_⟩ <;>
    simp [cStart, cEnd, cToolId, cToolName, countTS, NormState.init,
      List.countP_nil]

theorem countTS_mono_snoc (consumed : List AGEvent) (e : AGEvent)
    (m : String) : countTS consumed m ≤ countTS (consumed ++ [e]) m := by
  simp only [countTS, cStart, List.countP_append]
  omega

/-- Preservation of the invariant for a step that leaves the open-message
set, the pending buffer (up to weakening), and the tool bookkeeping sets
untouched, and whose output carries no counted event kind. -/
theorem NormInv_extend_neutral (consumed out : List AGEvent) (s : NormState)
    (e : AGEvent) (l : List AGEvent) (s' : NormState)
    (hopen : s'.emittedMessages = s.emittedMessages)
    (hcont : ∀ m, m ∈ s.messagesWithContent → m ∈ s'.messagesWithContent)
    (hpend : ∀ m, s'.pendingTextStart = some m →
      s.pendingTextStart = some m)
    (hcalls : s'.emittedToolCalls = s.emittedToolCalls)
    (hnames : s'.emittedToolNames = s.emittedToolNames)
    (hl : ∀ x ∈ l, (∀ m, isStartOf m x = false) ∧
      (∀ m, isEndOf m x = false) ∧ (∀ i, isToolStartId i x = false) ∧
      (∀ n, isToolStartName n x = false) ∧ x ≠ AGEvent.messagesSnapshot)
    (hinv : NormInv consumed out s) :
    NormInv (consumed ++ [e]) (out ++ l) s' := by
  have hS : ∀ m, cStart l m = 0 := fun m =>
    List.countP_eq_zero.mpr (fun x hx => by simp [(hl x hx).1 m])
  have hE : ∀ m, cEnd l m = 0 := fun m =>
    List.countP_eq_zero.mpr (fun x hx => by simp [(hl x hx).2.1 m])
  have hI : ∀ i, cToolId l i = 0 := fun i =>
    List.countP_eq_zero.mpr (fun x hx => by simp [(hl x hx).2.2.1 i])
  have hN : ∀ n, cToolName l n = 0 := fun n =>
    List.countP_eq_zero.mpr (fun x hx => by simp [(hl x hx).2.2.2.1 n])
  refine ⟨?_, ?_, ?_, ?_, ?_, ?_, ?_, ?_⟩
  · intro m
    rw [cStart_append, cEnd_append, hS, hE, hopen]
    simpa using hinv.startEnd m
  · intro m hm
    exact hcont m (hinv.openContent m (hopen ▸ hm))
  · exact hopen ▸ hinv.openNodup
  · intro m
    rw [cStart_append, hS]
    by_cases hp : s'.pendingTextStart = some m
    · have := hpend m hp
      calc cStart out m + 0 + (if s'.pendingTextStart = some m then 1 else 0)
          = cStart out m + (if s.pendingTextStart = some m then 1 else 0) := by
            simp [hp, this]
        _ ≤ countTS consumed m := hinv.startBound m
        _ ≤ countTS (consumed ++ [e]) m := countTS_mono_snoc _ _ _
    · have hb := hinv.startBound m
      have hmo := countTS_mono_snoc consumed e m
      simp only [hp, if_neg, if_false]
      omega
  · intro i hi
    rw [cToolId_append, hI, hcalls]
    simpa using hinv.toolId i hi
  · rw [cToolId_append, hI]
    simpa using hinv.toolIdEmpty
  · intro n
    rw [cToolName_append, hN, hnames]
    simpa using hinv.toolName n
  · intro hmem
    rcases List.mem_append.mp hmem with hmem | hmem
    · exact hinv.noSnap hmem
    · exact (hl _ hmem).2.2.2.2 rfl

theorem step_inv (consumed out : List AGEvent) (s : NormState) (e : AGEvent)
    (hinv : NormInv consumed out s) (hg : GoodEvent e = true)
    (hcount : ∀ m, countTS (consumed ++ [e]) m ≤ 1) :
    NormInv (consumed ++ [e]) (out ++ (step s e).2) (step s e).1 := by
  cases e with
  | runFinished => simp [GoodEvent] at hg
  | messagesSnapshot =>
      have h1 : (step s AGEvent.messagesSnapshot).1 = s := rfl
      have h2 : (step s AGEvent.messagesSnapshot).2 = [] := rfl
      rw [h1, h2]
      exact NormInv_extend_neutral consumed out s _ [] s rfl
        (fun _ h => h) (fun _ h => h) rfl rfl (by simp) hinv
  | other t =>
      have h1 : (step s (AGEvent.other t)).1 = s := rfl
      have h2 : (step s (AGEvent.other t)).2 = [AGEvent.other t] := rfl
      rw [h1, h2]
      refine NormInv_extend_neutral consumed out s _ _ s rfl
        (fun _ h => h) (fun _ h => h) rfl rfl ?_ hinv
      intro x hx
      obtain rfl : x = AGEvent.other t := by simpa using hx
      exact ⟨fun m => rfl, fun m => rfl, fun i => rfl, fun n => rfl, by simp⟩
  | toolArgs i0 =>
      have hg' : ¬(i0 = "") := by simpa [GoodEvent] using hg
      by_cases hsup : i0 ∈ s.suppressedToolIds
      · have h1 : (step s (AGEvent.toolArgs i0)).1 = s := by
          simp [step, hg', hsup]
        have h2 : (step s (AGEvent.toolArgs i0)).2 = [] := by
          simp [step, hg', hsup]
        rw [h1, h2]
        exact NormInv_extend_neutral consumed out s _ [] s rfl
          (fun _ h => h) (fun _ h => h) rfl rfl (by simp) hinv
      · have h1 : (step s (AGEvent.toolArgs i0)).1 = s := by
          simp [step, hsup]
        have h2 : (step s (AGEvent.toolArgs i0)).2 = [AGEvent.toolArgs i0] := by
          simp [step, hsup]
        rw [h1, h2]
        refine NormInv_extend_neutral consumed out s _ _ s rfl
          (fun _ h => h) (fun _ h => h) rfl rfl ?_ hinv
        intro x hx
        obtain rfl : x = AGEvent.toolArgs i0 := by simpa using hx
        exact ⟨fun m => rfl, fun m => rfl, fun i => rfl, fun n => rfl,
          by simp⟩
  | toolEnd i0 =>
      have hg' : ¬(i0 = "") := by simpa [GoodEvent] using hg
      by_cases hsup : i0 ∈ s.suppressedToolIds
      · have h1 : (step s (AGEvent.toolEnd i0)).1 = s := by
          simp [step, hg', hsup]
        have h2 : (step s (AGEvent.toolEnd i0)).2 = [] := by
          simp [step, hg', hsup]
        rw [h1, h2]
        exact NormInv_extend_neutral consumed out s _ [] s rfl
          (fun _ h => h) (fun _ h => h) rfl rfl (by simp) hinv
      · have h1 : (step s (AGEvent.toolEnd i0)).1 = s := by
          simp [step, hsup]
        have h2 : (step s (AGEvent.toolEnd i0)).2 = [AGEvent.toolEnd i0] := by
          simp [step, hsup]
        rw [h1, h2]
        refine NormInv_extend_neutral consumed out s _ _ s rfl
          (fun _ h => h) (fun _ h => h) rfl rfl ?_ hinv
        intro x hx
        obtain rfl : x = AGEvent.toolEnd i0 := by simpa using hx
        exact ⟨fun m => rfl, fun m => rfl, fun i => rfl, fun n => rfl,
          by simp⟩
  | toolResult i0 =>
      have hg' : ¬(i0 = "") := by simpa [GoodEvent] using hg
      by_cases hsup : i0 ∈ s.suppressedToolIds
      · have h1 : (step s (AGEvent.toolResult i0)).1 =
            { s with suppressedToolIds := removeSet s.suppressedToolIds i0 } := by
          simp [step, hg', hsup]
        have h2 : (step s (AGEvent.toolResult i0)).2 = [] := by
          simp [step, hg', hsup]
        rw [h1, h2]
        exact NormInv_extend_neutral consumed out s _ [] _ rfl
          (fun _ h => h) (fun _ h => h) rfl rfl (by simp) hinv
      · have h1 : (step s (AGEvent.toolResult i0)).1 = s := by
          simp [step, hsup]
        have h2 : (step s (AGEvent.toolResult i0)).2 =
            [AGEvent.toolResult i0] := by
          simp [step, hsup]
        rw [h1, h2]
        refine NormInv_extend_neutral consumed out s _ _ s rfl
          (fun _ h => h) (fun _ h => h) rfl rfl ?_ hinv
        intro x hx
        obtain rfl : x = AGEvent.toolResult i0 := by simpa using hx
        exact ⟨fun m => rfl, fun m => rfl, fun i => rfl, fun n => rfl,
          by simp⟩
  | textStart m0 =>
      have h1 : (step s (AGEvent.textStart m0)).1 =
          { s with pendingTextStart := some m0 } := rfl
      have h2 : (step s (AGEvent.textStart m0)).2 = [] := rfl
      rw [h1, h2]
      have hct : ∀ m, countTS (consumed ++ [AGEvent.textStart m0]) m =
          countTS consumed m + (if m0 = m then 1 else 0) := by
        intro m
        simp [countTS, cStart, List.countP_append, List.countP_cons,
          List.countP_nil, isStartOf]
      refine ⟨?_, ?_, ?_, ?_, ?_, ?_, ?_, ?_⟩
      · intro m
        dsimp only
        rw [List.append_nil]
        exact hinv.startEnd m
      · exact hinv.openContent
      · exact hinv.openNodup
      · intro m
        dsimp only
        rw [List.append_nil, hct m]
        have hb := hinv.startBound m
        have hb' : cStart out m ≤ countTS consumed m :=
          le_trans (Nat.le_add_right _ _) hb
        by_cases hm : m0 = m
        · rw [if_pos (congrArg some hm), if_pos hm]
          omega
        · rw [if_neg (fun hc => hm (Option.some.inj hc)), if_neg hm]
          omega
      · intro i hi
        dsimp only
        rw [List.append_nil]
        exact hinv.toolId i hi
      · rw [List.append_nil]
        exact hinv.toolIdEmpty
      · intro n
        dsimp only
        rw [List.append_nil]
        exact hinv.toolName n
      · rw [List.append_nil]
        exact hinv.noSnap
  | textEnd m0 =>
      have hg' : ¬(m0 = "") := by simpa [GoodEvent] using hg
      by_cases hmem : m0 ∈ s.emittedMessages
      · have h1 : (step s (AGEvent.textEnd m0)).1 =
            { s with emittedMessages := removeSet s.emittedMessages m0 } := by
          simp [step, hmem]
        have h2 : (step s (AGEvent.textEnd m0)).2 = [AGEvent.textEnd m0] := by
          simp [step, hmem]
        rw [h1, h2]
        have hS : ∀ m, cStart [AGEvent.textEnd m0] m = 0 := fun m => by
          simp [cStart, List.countP_cons, List.countP_nil, isStartOf]
        have hE : ∀ m, cEnd [AGEvent.textEnd m0] m =
            (if m0 = m then 1 else 0) := fun m => by
          simp [cEnd, List.countP_cons, List.countP_nil, isEndOf]
        refine ⟨?_, ?_, ?_, ?_, ?_, ?_, ?_, ?_⟩
        · intro m
          dsimp only
          rw [cStart_append, cEnd_append, hS, hE]
          have hse := hinv.startEnd m
          by_cases hm : m0 = m
          · subst hm
            have hmm : m0 ∉ removeSet s.emittedMessages m0 := fun hc =>
              (((mem_removeSet _ _ _).mp hc).2) rfl
            rw [if_pos rfl, if_neg hmm]
            rw [if_pos hmem] at hse
            omega
          · have hiff : m ∈ removeSet s.emittedMessages m0 ↔
                m ∈ s.emittedMessages :=
              ⟨fun h => ((mem_removeSet _ _ _).mp h).1,
               fun h => (mem_removeSet _ _ _).mpr
                 ⟨h, fun hc => hm hc.symm⟩⟩
            rw [if_neg hm]
            simp only [hiff]
            omega
        · intro m hm
          dsimp only at hm ⊢
          exact hinv.openContent m ((mem_removeSet _ _ _).mp hm).1
        · exact removeSet_nodup _ _ hinv.openNodup
        · intro m
          dsimp only
          rw [cStart_append, hS]
          have hb := hinv.startBound m
          have hmo := countTS_mono_snoc consumed (AGEvent.textEnd m0) m
          omega
        · intro i hi
          dsimp only
          rw [cToolId_append]
          have h0 : cToolId [AGEvent.textEnd m0] i = 0 := by
            simp [cToolId, List.countP_cons, List.countP_nil, isToolStartId]
          rw [h0]
          simpa using hinv.toolId i hi
        · rw [cToolId_append]
          have h0 : cToolId [AGEvent.textEnd m0] "" = 0 := by
            simp [cToolId, List.countP_cons, List.countP_nil, isToolStartId]
          rw [h0]
          simpa using hinv.toolIdEmpty
        · intro n
          dsimp only
          rw [cToolName_append]
          have h0 : cToolName [AGEvent.textEnd m0] n = 0 := by
            simp [cToolName, List.countP_cons, List.countP_nil,
              isToolStartName]
          rw [h0]
          simpa using hinv.toolName n
        · intro hx
          rcases List.mem_append.mp hx with hx | hx
          · exact hinv.noSnap hx
          · simp at hx
      · have h1 : (step s (AGEvent.textEnd m0)).1 = s := by
          simp [step, hmem]
        have h2 : (step s (AGEvent.textEnd m0)).2 = [] := by
          simp [step, hmem]
        rw [h1, h2]
        exact NormInv_extend_neutral consumed out s _ [] s rfl
          (fun _ h => h) (fun _ h => h) rfl rfl (by simp) hinv
  | toolStart i0 n0 =>
      have hg' : ¬(i0 = "") := by simpa [GoodEvent] using hg
      by_cases hb1 : i0 ∈ s.emittedToolCalls
      · have h1 : (step s (AGEvent.toolStart i0 n0)).1 =
            { s with
              pendingTextStart := none,
              suppressedToolIds := addSet s.suppressedToolIds i0 } := by
          simp [step, hg', hb1]
        have h2 : (step s (AGEvent.toolStart i0 n0)).2 = [] := by
          simp [step, hg', hb1]
        rw [h1, h2]
        exact NormInv_extend_neutral consumed out s _ [] _ rfl
          (fun _ h => h) (fun _ h => by simp at h) rfl rfl (by simp) hinv
      · by_cases hb2 : n0 ∈ s.emittedToolNames
        · have h1 : (step s (AGEvent.toolStart i0 n0)).1 =
              { s with
                pendingTextStart := none,
                suppressedToolIds := addSet s.suppressedToolIds i0 } := by
            simp [step, hg', hb1, hb2]
          have h2 : (step s (AGEvent.toolStart i0 n0)).2 = [] := by
            simp [step, hg', hb1, hb2]
          rw [h1, h2]
          exact NormInv_extend_neutral consumed out s _ [] _ rfl
            (fun _ h => h) (fun _ h => by simp at h) rfl rfl (by simp) hinv
        · have h1 : (step s (AGEvent.toolStart i0 n0)).1 =
              { s with
                pendingTextStart := none,
                emittedToolCalls := addSet s.emittedToolCalls i0,
                emittedToolNames := addSet s.emittedToolNames n0 } := by
            simp [step, hg', hb1, hb2]
          have h2 : (step s (AGEvent.toolStart i0 n0)).2 =
              [AGEvent.toolStart i0 n0] := by
            simp [step, hg', hb1, hb2]
          rw [h1, h2]
          have hS : ∀ m, cStart [AGEvent.toolStart i0 n0] m = 0 := fun m => by
            simp [cStart, List.countP_cons, List.countP_nil, isStartOf]
          have hE : ∀ m, cEnd [AGEvent.toolStart i0 n0] m = 0 := fun m => by
            simp [cEnd, List.countP_cons, List.countP_nil, isEndOf]
          have hI : ∀ i, cToolId [AGEvent.toolStart i0 n0] i =
              (if i0 = i then 1 else 0) := fun i => by
            simp [cToolId, List.countP_cons, List.countP_nil, isToolStartId]
          have hN : ∀ n, cToolName [AGEvent.toolStart i0 n0] n =
              (if n0 = n then 1 else 0) := fun n => by
            simp [cToolName, List.countP_cons, List.countP_nil,
              isToolStartName]
          refine ⟨?_, ?_, ?_, ?_, ?_, ?_, ?_, ?_⟩
          · intro m
            dsimp only
            rw [cStart_append, cEnd_append, hS, hE]
            have hse := hinv.startEnd m
            omega
          · exact hinv.openContent
          · exact hinv.openNodup
          · intro m
            dsimp only
            rw [cStart_append, hS]
            have hnone : ¬((none : Option String) = some m) := by simp
            rw [if_neg hnone]
            have hb := hinv.startBound m
            have hb' : cStart out m ≤ countTS consumed m :=
              le_trans (Nat.le_add_right _ _) hb
            have hmo := countTS_mono_snoc consumed (AGEvent.toolStart i0 n0) m
            omega
          · intro i hi
            dsimp only
            rw [cToolId_append, hI]
            by_cases him : i0 = i
            · subst him
              have h0 : cToolId out i0 = 0 := by
                have := hinv.toolId i0 hi
                rwa [if_neg hb1] at this
              have h1m : i0 ∈ addSet s.emittedToolCalls i0 :=
                (mem_addSet _ _ _).mpr (Or.inr rfl)
              rw [if_pos rfl, if_pos h1m, h0]
            · have hiff : i ∈ addSet s.emittedToolCalls i0 ↔
                  i ∈ s.emittedToolCalls :=
                ⟨fun h => ((mem_addSet _ _ _).mp h).elim id
                   (fun hc => absurd hc.symm him),
                 fun h => (mem_addSet _ _ _).mpr (Or.inl h)⟩
              rw [if_neg him]
              simp only [hiff]
              have := hinv.toolId i hi
              omega
          · rw [cToolId_append, hI, if_neg hg']
            simpa using hinv.toolIdEmpty
          · intro n
            dsimp only
            rw [cToolName_append, hN]
            by_cases hnn : n0 = n
            · subst hnn
              have h0 : cToolName out n0 = 0 := by
                have := hinv.toolName n0
                rwa [if_neg hb2] at this
              have h1m : n0 ∈ addSet s.emittedToolNames n0 :=
                (mem_addSet _ _ _).mpr (Or.inr rfl)
              rw [if_pos rfl, if_pos h1m, h0]
            · have hiff : n ∈ addSet s.emittedToolNames n0 ↔
                  n ∈ s.emittedToolNames :=
                ⟨fun h => ((mem_addSet _ _ _).mp h).elim id
                   (fun hc => absurd hc.symm hnn),
                 fun h => (mem_addSet _ _ _).mpr (Or.inl h)⟩
              rw [if_neg hnn]
              simp only [hiff]
              have := hinv.toolName n
              omega
          · intro hx
            rcases List.mem_append.mp hx with hx | hx
            · exact hinv.noSnap hx
            · simp at hx
  | textContent m0 =>
      have hg' : ¬(m0 = "") := by simpa [GoodEvent] using hg
      rcases hp : s.pendingTextStart with _ | p
      · have h1 : (step s (AGEvent.textContent m0)).1 =
            { s with messagesWithContent :=
                addSet s.messagesWithContent m0 } := by
          simp [step, hp, hg']
        have h2 : (step s (AGEvent.textContent m0)).2 =
            [AGEvent.textContent m0] := by
          simp [step, hp]
        rw [h1, h2]
        refine NormInv_extend_neutral consumed out s _ _ _ rfl
          (fun m hm => (mem_addSet _ _ _).mpr (Or.inl hm))
          (fun _ h => h) rfl rfl ?_ hinv
        intro x hx
        obtain rfl : x = AGEvent.textContent m0 := by simpa using hx
        exact ⟨fun m => rfl, fun m => rfl, fun i => rfl, fun n => rfl,
          by simp⟩
      · by_cases hpm : p = m0
        · subst hpm
          -- the buffered start is flushed in front of this content event
          have hb1 : cStart out p + 1 ≤ countTS consumed p := by
            simpa [hp] using hinv.startBound p
          have hc2 : countTS (consumed ++ [AGEvent.textContent p]) p =
              countTS consumed p := by
            simp [countTS, cStart, List.countP_append, List.countP_cons,
              List.countP_nil, isStartOf]
          have hc1 : countTS consumed p ≤ 1 := by
            rw [← hc2]
            exact hcount p
          have hstart0 : cStart out p = 0 := by omega
          have hopen0 : p ∉ s.emittedMessages := by
            intro hc
            have hse := hinv.startEnd p
            rw [hstart0, if_pos hc] at hse
            omega
          have hend0 : cEnd out p = 0 := by
            have hse := hinv.startEnd p
            rw [hstart0, if_neg hopen0] at hse
            omega
          have h1 : (step s (AGEvent.textContent p)).1 =
              { s with
                pendingTextStart := none,
                emittedMessages := addSet s.emittedMessages p,
                messagesWithContent := addSet s.messagesWithContent p } := by
            simp [step, hp, hg']
          have h2 : (step s (AGEvent.textContent p)).2 =
              [AGEvent.textStart p, AGEvent.textContent p] := by
            simp [step, hp]
          rw [h1, h2]
          have hS : ∀ m, cStart [AGEvent.textStart p,
              AGEvent.textContent p] m = (if p = m then 1 else 0) :=
            fun m => by
              simp [cStart, List.countP_cons, List.countP_nil, isStartOf]
          have hE : ∀ m, cEnd [AGEvent.textStart p,
              AGEvent.textContent p] m = 0 := fun m => by
            simp [cEnd, List.countP_cons, List.countP_nil, isEndOf]
          refine ⟨?_, ?_, ?_, ?_, ?_, ?_, ?_, ?_⟩
          · intro m
            dsimp only
            rw [cStart_append, cEnd_append, hS, hE]
            by_cases hm : p = m
            · subst hm
              have h1m : p ∈ addSet s.emittedMessages p :=
                (mem_addSet _ _ _).mpr (Or.inr rfl)
              rw [if_pos rfl, if_pos h1m, hstart0, hend0]
            · have hiff : m ∈ addSet s.emittedMessages p ↔
                  m ∈ s.emittedMessages :=
                ⟨fun h => ((mem_addSet _ _ _).mp h).elim id
                   (fun hc => absurd hc.symm hm),
                 fun h => (mem_addSet _ _ _).mpr (Or.inl h)⟩
              rw [if_neg hm]
              simp only [hiff]
              have hse := hinv.startEnd m
              omega
          · intro m hm
            dsimp only at hm ⊢
            rcases (mem_addSet _ _ _).mp hm with hm' | rfl
            · exact (mem_addSet _ _ _).mpr
                (Or.inl (hinv.openContent m hm'))
            · exact (mem_addSet _ _ _).mpr (Or.inr rfl)
          · exact addSet_nodup _ _ hinv.openNodup
          · intro m
            dsimp only
            rw [cStart_append, hS]
            have hnone : ¬((none : Option String) = some m) := by simp
            rw [if_neg hnone]
            have hc2' : countTS (consumed ++ [AGEvent.textContent p]) m =
                countTS consumed m := by
              simp [countTS, cStart, List.countP_append, List.countP_cons,
                List.countP_nil, isStartOf]
            rw [hc2']
            by_cases hm : p = m
            · subst hm
              rw [if_pos rfl]
              omega
            · rw [if_neg hm]
              have hb := hinv.startBound m
              have hbit : ¬(s.pendingTextStart = some m) := by
                rw [hp]
                exact fun hc => hm (Option.some.inj hc)
              rw [if_neg hbit] at hb
              omega
          · intro i hi
            dsimp only
            rw [cToolId_append]
            have h0 : cToolId [AGEvent.textStart p, AGEvent.textContent p]
                i = 0 := by
              simp [cToolId, List.countP_cons, List.countP_nil,
                isToolStartId]
            rw [h0]
            simpa using hinv.toolId i hi
          · rw [cToolId_append]
            have h0 : cToolId [AGEvent.textStart p, AGEvent.textContent p]
                "" = 0 := by
              simp [cToolId, List.countP_cons, List.countP_nil,
                isToolStartId]
            rw [h0]
            simpa using hinv.toolIdEmpty
          · intro n
            dsimp only
            rw [cToolName_append]
            have h0 : cToolName [AGEvent.textStart p, AGEvent.textContent p]
                n = 0 := by
              simp [cToolName, List.countP_cons, List.countP_nil,
                isToolStartName]
            rw [h0]
            simpa using hinv.toolName n
          · intro hx
            rcases List.mem_append.mp hx with hx | hx
            · exact hinv.noSnap hx
            · simp at hx
        · have h1 : (step s (AGEvent.textContent m0)).1 =
              { s with messagesWithContent :=
                  addSet s.messagesWithContent m0 } := by
            simp [step, hp, hpm, hg']
          have h2 : (step s (AGEvent.textContent m0)).2 =
              [AGEvent.textContent m0] := by
            simp [step, hp, hpm]
          rw [h1, h2]
          refine NormInv_extend_neutral consumed out s _ _ _ rfl
            (fun m hm => (mem_addSet _ _ _).mpr (Or.inl hm))
            (fun _ h => h) rfl rfl ?_ hinv
          intro x hx
          obtain rfl : x = AGEvent.textContent m0 := by simpa using hx
          exact ⟨fun m => rfl, fun m => rfl, fun i => rfl, fun n => rfl,
            by simp⟩

theorem runNorm_inv (evs : List AGEvent) (consumed out : List AGEvent)
    (s : NormState) (hinv : NormInv consumed out s)
    (hg : ∀ e ∈ evs, GoodEvent e = true)
    (hcount : ∀ m, countTS (consumed ++ evs) m ≤ 1) :
    NormInv (consumed ++ evs) (out ++ (runNorm s evs).2)
      (runNorm s evs).1 := by
  induction evs generalizing consumed out s with
  | nil => simpa [runNorm] using hinv
  | cons e rest ih =>
      have e1 : (consumed ++ [e]) ++ rest = consumed ++ e :: rest := by
        rw [List.append_assoc]
        rfl
      have hc1 : ∀ m, countTS (consumed ++ [e]) m ≤ 1 := by
        intro m
        have h := hcount m
        have hle : countTS (consumed ++ [e]) m ≤
            countTS (consumed ++ e :: rest) m := by
          simp only [countTS, cStart, List.countP_append, List.countP_cons,
            List.countP_nil]
          omega
        omega
      have h1 := step_inv consumed out s e hinv (hg e (by simp)) hc1
      have h2 := ih (consumed ++ [e]) (out ++ (step s e).2) (step s e).1 h1
        (fun e' he' => hg e' (by simp [he']))
        (fun m => by rw [e1]; exact hcount m)
      have e2 : (out ++ (step s e).2) ++ (runNorm (step s e).1 rest).2 =
          out ++ (runNorm s (e :: rest)).2 := by
        simp [runNorm, List.append_assoc]
      have e3 : (runNorm (step s e).1 rest).1 = (runNorm s (e :: rest)).1 := by
        simp [runNorm]
      rw [e1, e2, e3] at h2
      exact h2

theorem cStart_map_textEnd (l : List String) (m : String) :
    cStart (l.map AGEvent.textEnd) m = 0 := by
  induction l <;>
    simp [cStart, List.countP_cons, List.countP_nil, isStartOf, *]

theorem cToolId_map_textEnd (l : List String) (i : String) :
    cToolId (l.map AGEvent.textEnd) i = 0 := by
  induction l <;>
    simp [cToolId, List.countP_cons, List.countP_nil, isToolStartId, *]

theorem cToolName_map_textEnd (l : List String) (n : String) :
    cToolName (l.map AGEvent.textEnd) n = 0 := by
  induction l <;>
    simp [cToolName, List.countP_cons, List.countP_nil, isToolStartName, *]

theorem cEnd_map_textEnd (l : List String) (m : String) (h : l.Nodup) :
    cEnd (l.map AGEvent.textEnd) m = if m ∈ l then 1 else 0 := by
  induction l with
  | nil => simp [cEnd, List.countP_nil]
  | cons a t ih =>
      obtain ⟨ha, ht⟩ := List.nodup_cons.mp h
      by_cases hm : a = m
      · subst hm
        have h0 : cEnd (t.map AGEvent.textEnd) a = 0 := by
          rw [ih ht, if_neg ha]
        have h1 : cEnd ((a :: t).map AGEvent.textEnd) a =
            cEnd (t.map AGEvent.textEnd) a + 1 := by
          simp [cEnd, List.countP_cons, isEndOf]
        rw [h1, h0, if_pos (List.mem_cons_self a t)]
      · have hm' : ¬(m = a) := fun hc => hm hc.symm
        simp only [List.map_cons, cEnd, List.countP_cons] at ih ⊢
        rw [ih ht]
        simp [isEndOf, hm, hm', List.mem_cons]

/-- C1 amended: for every input stream whose events all carry nonempty
message/tool-call ids, which contains no run-finished before the terminal
one, and which contains at most one text-message-start per message id,
the normalizer output is well-formed: starts and ends balance for every
message id, no tool call id and no tool name occurs in two emitted
tool-call-starts, the terminal run-finished is the last emitted event, and
no messages-snapshot event is forwarded. -/
theorem stream_wellformed (evs : List AGEvent)
    (hg : ∀ e ∈ evs, GoodEvent e = true)
    (hone : ∀ m, countTS evs m ≤ 1) :
    (∀ m, cStart (normOutput (evs ++ [AGEvent.runFinished])) m =
      cEnd (normOutput (evs ++ [AGEvent.runFinished])) m) ∧
    (∀ i, cToolId (normOutput (evs ++ [AGEvent.runFinished])) i ≤ 1) ∧
    (∀ n, cToolName (normOutput (evs ++ [AGEvent.runFinished])) n ≤ 1) ∧
    (normOutput (evs ++ [AGEvent.runFinished])).getLast? =
      some AGEvent.runFinished ∧
    AGEvent.messagesSnapshot ∉ normOutput (evs ++ [AGEvent.runFinished]) := by
  have hinv := runNorm_inv evs [] [] NormState.init NormInv_init hg
    (by simpa using hone)
  rw [List.nil_append, List.nil_append] at hinv
  set s1 := (runNorm NormState.init evs).1 with hs1
  set out1 := (runNorm NormState.init evs).2 with hout1
  have hfilter : s1.emittedMessages.filter
      (fun m => m ∈ s1.messagesWithContent) = s1.emittedMessages :=
    List.filter_eq_self.mpr fun a ha => by
      simpa using hinv.openContent a ha
  have hstepRF2 : (step s1 AGEvent.runFinished).2 =
      s1.emittedMessages.map AGEvent.textEnd ++ [AGEvent.runFinished] := by
    simp only [step]
    rw [hfilter]
  have hfull : normOutput (evs ++ [AGEvent.runFinished]) =
      out1 ++ (s1.emittedMessages.map AGEvent.textEnd ++
        [AGEvent.runFinished]) := by
    simp only [normOutput]
    rw [runNorm_append]
    simp only [runNorm, List.append_nil]
    rw [← hs1, ← hout1, hstepRF2]
  refine ⟨?_, ?_, ?_, ?_, ?_⟩
  · intro m
    rw [hfull, cStart_append, cEnd_append, cStart_append, cEnd_append,
      cStart_map_textEnd, cEnd_map_textEnd _ _ hinv.openNodup]
    have hRFs : cStart [AGEvent.runFinished] m = 0 := by
      simp [cStart, List.countP_cons, List.countP_nil, isStartOf]
    have hRFe : cEnd [AGEvent.runFinished] m = 0 := by
      simp [cEnd, List.countP_cons, List.countP_nil, isEndOf]
    rw [hRFs, hRFe]
    have hse := hinv.startEnd m
    omega
  · intro i
    rw [hfull, cToolId_append, cToolId_append, cToolId_map_textEnd]
    have hRF : cToolId [AGEvent.runFinished] i = 0 := by
      simp [cToolId, List.countP_cons, List.countP_nil, isToolStartId]
    rw [hRF]
    by_cases hi : i = ""
    · subst hi
      have := hinv.toolIdEmpty
      omega
    · have h := hinv.toolId i hi
      rw [h]
      split <;> simp
  · intro n
    rw [hfull, cToolName_append, cToolName_append, cToolName_map_textEnd]
    have hRF : cToolName [AGEvent.runFinished] n = 0 := by
      simp [cToolName, List.countP_cons, List.countP_nil, isToolStartName]
    rw [hRF]
    have h := hinv.toolName n
    rw [h]
    split <;> simp
  · rw [hfull, ← List.append_assoc]
    exact List.getLast?_concat _
  · rw [hfull]
    intro hx
    rcases List.mem_append.mp hx with hx | hx
    · exact hinv.noSnap hx
    · rcases List.mem_append.mp hx with hx | hx
      · simp at hx
      · simp at hx

/-- C1 counterexample: a second text-message-start for a message id that
was already flushed is re-emitted, but the set-based bookkeeping absorbs
the duplicate, so only one end is injected at run-finished.  On the input
`[start m, content m, start m, content m, run-finished]` (which ends with
the terminal event) the output carries two starts and one end for `"m"`,
refuting the per-message start/end balance. -/
theorem stream_wellformed_cx :
    cStart (normOutput [AGEvent.textStart "m", AGEvent.textContent "m",
        AGEvent.textStart "m", AGEvent.textContent "m",
        AGEvent.runFinished]) "m" = 2 ∧
      cEnd (normOutput [AGEvent.textStart "m", AGEvent.textContent "m",
        AGEvent.textStart "m", AGEvent.textContent "m",
        AGEvent.runFinished]) "m" = 1 :=
  ⟨rfl, rfl⟩

theorem stream_wellformed_witness :
    (∀ e ∈ [AGEvent.textStart "m1", AGEvent.textContent "m1",
        AGEvent.toolStart "t1" "f"], GoodEvent e = true) ∧
      (∀ m, countTS [AGEvent.textStart "m1", AGEvent.textContent "m1",
        AGEvent.toolStart "t1" "f"] m ≤ 1) ∧
      (∀ m, cStart (normOutput ([AGEvent.textStart "m1",
          AGEvent.textContent "m1", AGEvent.toolStart "t1" "f"] ++
          [AGEvent.runFinished])) m =
        cEnd (normOutput ([AGEvent.textStart "m1", AGEvent.textContent "m1",
          AGEvent.toolStart "t1" "f"] ++ [AGEvent.runFinished])) m) ∧
      (normOutput ([AGEvent.textStart "m1", AGEvent.textContent "m1",
          AGEvent.toolStart "t1" "f"] ++ [AGEvent.runFinished])).getLast? =
        some AGEvent.runFinished := by
  have hgood : ∀ e ∈ [AGEvent.textStart "m1", AGEvent.textContent "m1",
      AGEvent.toolStart "t1" "f"], GoodEvent e = true := by decide
  have hone : ∀ m, countTS [AGEvent.textStart "m1", AGEvent.textContent "m1",
      AGEvent.toolStart "t1" "f"] m ≤ 1 := by
    intro m
    have h : countTS [AGEvent.textStart "m1", AGEvent.textContent "m1",
        AGEvent.toolStart "t1" "f"] m = (if "m1" = m then 1 else 0) := by
      simp [countTS, cStart, List.countP_cons, List.countP_nil, isStartOf]
    rw [h]
    split <;> simp
  have h := stream_wellformed _ hgood hone
  exact ⟨hgood, hone, h.1, h.2.2.2.1⟩

end Nexus
